import Mathlib

/-!
Shallow embedding of the uniform range sampler of src/distributions/uniform.rs
from the rand repository.

Machine integers of bit width w are represented as bit patterns: natural
numbers below 2 ^ w.  The function interp gives the value of a pattern under
the signed (two complement) or unsigned reading of the type; wrapping
arithmetic is arithmetic modulo 2 ^ w on patterns.  The macro
uniform_int_impl instantiates one back-end per Rust integer type with a
native width w and a working width W of at least 32 bits (pairs (8,32),
(16,32), (32,32), (64,64), (128,128) and the platform usize width); the
embedding is parameterised by arbitrary w and W with w at most W, which
covers every instantiation.  Fallible operations (Rust panics: assertion
failures and overflow of non-wrapping arithmetic) are modelled with Option.
The random bit source is modelled as a list of natural numbers; a draw of a
width-W word takes the next element reduced modulo 2 ^ W, and rejection
loops walk the list, returning none when it is exhausted.
-/

namespace Rand

/-- Value of the bit pattern x under the signed (two complement) or unsigned
reading of a width w machine integer.  This is the mathematical meaning of a
Rust value of the concrete type; comparisons low < high on Rust values are
comparisons of interpretations. -/
def interp (signed : Bool) (w : Nat) (x : Nat) : Int :=
  if signed then (if x < 2 ^ (w - 1) then (x : Int) else (x : Int) - 2 ^ w) else (x : Int)

/-- Smallest representable value of the width w machine integer. -/
def ibase (signed : Bool) (w : Nat) : Int :=
  if signed then -(2 ^ (w - 1) : Int) else 0

/-- Wrapping subtraction on width w bit patterns (Rust wrapping_sub). -/
def wrapSub (w a b : Nat) : Nat := (a + (2 ^ w - b)) % 2 ^ w

/-- Wrapping addition on width w bit patterns (Rust wrapping_add). -/
def wrapAdd (w a b : Nat) : Nat := (a + b) % 2 ^ w

/-- The cast chain zone as signed as i_large as u_large from sample:
reinterpret the width w pattern as signed, sign extend to width W, and
reinterpret as the width W unsigned pattern. -/
def signExtend (w W x : Nat) : Nat :=
  ((interp true w x) % (2 ^ W : Int)).toNat

theorem interp_false (w x : Nat) : interp false w x = (x : Int) := rfl

theorem int_pow_split (w : Nat) (hw : 0 < w) : (2 : Int) ^ w = 2 ^ (w - 1) * 2 := by
  rw [← pow_succ]
  congr 1
  omega

theorem ibase_le_interp (signed : Bool) (w x : Nat) (hw : 0 < w) (hx : x < 2 ^ w) :
    ibase signed w ≤ interp signed w x := by
  have hsplit := int_pow_split w hw
  have hxI : (x : Int) < 2 ^ w := by exact_mod_cast hx
  have hx2 : (0 : Int) ≤ 2 ^ (w - 1) := by positivity
  cases signed with
  | false =>
    simp [interp, ibase]
  | true =>
    simp only [interp, ibase, if_true]
    split
    · omega
    · rename_i hlt
      have hlt2 : ((2 : Nat) ^ (w - 1) : Int) ≤ (x : Int) := by
        exact_mod_cast Nat.le_of_not_lt hlt
      push_cast at hlt2
      omega

theorem interp_lt_ibase_add (signed : Bool) (w x : Nat) (hw : 0 < w) (hx : x < 2 ^ w) :
    interp signed w x < ibase signed w + 2 ^ w := by
  have hsplit := int_pow_split w hw
  have hxI : (x : Int) < 2 ^ w := by exact_mod_cast hx
  have hx2 : (0 : Int) ≤ 2 ^ (w - 1) := by positivity
  cases signed with
  | false =>
    simp only [interp, ibase, Bool.false_eq_true, if_false, zero_add]
    omega
  | true =>
    simp only [interp, ibase, if_true]
    split
    · rename_i hlt
      have hlt2 : (x : Int) < ((2 : Nat) ^ (w - 1) : Int) := by exact_mod_cast hlt
      push_cast at hlt2
      omega
    · omega

theorem interp_emod (signed : Bool) (w x : Nat) :
    interp signed w x % (2 ^ w : Int) = (x : Int) % (2 ^ w : Int) := by
  cases signed with
  | false => rfl
  | true =>
    simp only [interp, if_true]
    split
    · rfl
    · rw [Int.sub_emod, Int.emod_self, sub_zero, Int.emod_emod_of_dvd _ dvd_rfl]

/-- Two integers that are congruent modulo n and lie in a common window of
width n are equal. -/
theorem int_window_eq (n a b c : Int) (hn : 0 < n) (hmod : a % n = b % n)
    (ha1 : c ≤ a) (ha2 : a < c + n) (hb1 : c ≤ b) (hb2 : b < c + n) : a = b := by
  have hdvd : n ∣ a - b := by
    have h0 : (a - b) % n = 0 := by
      rw [Int.sub_emod, hmod, sub_self, Int.zero_emod]
    exact Int.dvd_of_emod_eq_zero h0
  obtain ⟨k, hk⟩ := hdvd
  have hk0 : k = 0 := by
    rcases lt_trichotomy k 0 with h | h | h
    · exfalso
      have hle : k ≤ -1 := by omega
      have : n * k ≤ n * (-1) := by
        exact mul_le_mul_of_nonneg_left hle (le_of_lt hn)
      have hnk : n * k ≤ -n := by linarith [this]
      omega
    · exact h
    · exfalso
      have hle : (1 : Int) ≤ k := by omega
      have : n * 1 ≤ n * k := by
        exact mul_le_mul_of_nonneg_left hle (le_of_lt hn)
      omega
  rw [hk0, mul_zero] at hk
  omega

theorem interp_congr_eq (signed : Bool) (w : Nat) (hw : 0 < w) (x : Nat) (hx : x < 2 ^ w)
    (b : Int) (hmod : (x : Int) % (2 ^ w : Int) = b % (2 ^ w : Int))
    (hb1 : ibase signed w ≤ b) (hb2 : b < ibase signed w + 2 ^ w) :
    interp signed w x = b := by
  have hn : (0 : Int) < 2 ^ w := by positivity
  refine int_window_eq (2 ^ w) (interp signed w x) b (ibase signed w) hn ?_ ?_ ?_ hb1 hb2
  · rw [interp_emod, hmod]
  · exact ibase_le_interp signed w x hw hx
  · exact interp_lt_ibase_add signed w x hw hx

/-- The integer back-end state (struct UniformInt): three fields of the
native type, stored as width w bit patterns.  The range and zone fields are
really unsigned values stored under the native type, exactly as in the
source. -/
structure UniformInt (w : Nat) where
  low : Nat
  range : Nat
  zone : Nat
deriving DecidableEq

/-- UniformSampler::new_inclusive for UniformInt: assert low at most high in
the native order, then compute range with wrapping arithmetic over the
unsigned pattern (full span wraps to the sentinel 0), and zone from
ints_to_reject, guarded by range greater than zero.  none models the
assertion panic. -/
def UniformInt.newInclusive (signed : Bool) (w : Nat) (low high : Nat) :
    Option (UniformInt w) :=
  if interp signed w low ≤ interp signed w high then
    let unsigned_max := 2 ^ w - 1
    let urange := wrapAdd w (wrapSub w high low) 1
    let ints_to_reject := if 0 < urange then (unsigned_max - urange + 1) % urange else 0
    some ⟨low, urange, unsigned_max - ints_to_reject⟩
  else
    none

/-- The checked native subtraction high - 1 appearing in UniformSampler::new:
none models the overflow panic (high is the smallest representable value). -/
def checkedSubOne (signed : Bool) (w : Nat) (x : Nat) : Option Nat :=
  if signed then
    if x = 2 ^ (w - 1) then none else some (wrapSub w x 1)
  else
    if x = 0 then none else some (x - 1)

/-- UniformSampler::new for UniformInt: assert low strictly below high in the
native order, then delegate to new_inclusive with upper bound high - 1. -/
def UniformInt.new (signed : Bool) (w : Nat) (low high : Nat) :
    Option (UniformInt w) :=
  if interp signed w low < interp signed w high then
    match checkedSubOne signed w high with
    | some h1 => UniformInt.newInclusive signed w low h1
    | none => none
  else
    none

/-- The body of the rejection loop shared by sample and sample_single: draw a
width W word, widening-multiply it by the range into a double word split as
(hi, lo), and accept low plus hi (wrapped, truncated to the native type)
exactly when lo is at most the zone. -/
def wmulAccept (w W low urange zone draw : Nat) : Option Nat :=
  let v := draw % 2 ^ W
  let hi := v * urange / 2 ^ W
  let lo := v * urange % 2 ^ W
  if lo ≤ zone then some (wrapAdd w low (hi % 2 ^ w)) else none

/-- One iteration of UniformInt::sample on one raw draw: for a positive
range, the widening-multiply rejection test against the sign-extended zone;
for the range 0 sentinel, a direct native-width draw returned unmodified. -/
def UniformInt.sampleStep {w : Nat} (W : Nat) (u : UniformInt w) (draw : Nat) :
    Option Nat :=
  if 0 < u.range then
    wmulAccept w W u.low u.range (signExtend w W u.zone) draw
  else
    some (draw % 2 ^ w)

/-- UniformInt::sample: run the rejection loop over the draw list, returning
the accepted value together with the unconsumed rest of the list; none when
the list is exhausted. -/
def UniformInt.sampleList {w : Nat} (W : Nat) (u : UniformInt w) :
    List Nat → Option (Nat × List Nat)
  | [] => none
  | draw :: rest =>
    match u.sampleStep W draw with
    | some x => some (x, rest)
    | none => u.sampleList W rest

/-- The range and zone computed by UniformInt::sample_single before its
rejection loop: assert low strictly below high, recompute range by wrapping
subtraction, and take either the exact modulus zone (native types of at most
16 bits, computed at the working width W) or the conservative approximation
range shifted left by its working-width leading-zero count.  none models the
assertion panic. -/
def sampleSingleParams (signed : Bool) (w W : Nat) (low high : Nat) :
    Option (Nat × Nat) :=
  if interp signed w low < interp signed w high then
    let urange := wrapSub w high low
    let zone :=
      if 2 ^ w - 1 ≤ (2 ^ 16 - 1) % 2 ^ w then
        let unsigned_max := 2 ^ W - 1
        let ints_to_reject := (unsigned_max - urange + 1) % urange
        unsigned_max - ints_to_reject
      else
        urange * 2 ^ (W - (Nat.log2 urange + 1)) % 2 ^ W
    some (urange, zone)
  else
    none

/-- The rejection loop of UniformInt::sample_single over the draw list. -/
def sampleSingleLoop (w W low urange zone : Nat) : List Nat → Option Nat
  | [] => none
  | draw :: rest =>
    match wmulAccept w W low urange zone draw with
    | some x => some x
    | none => sampleSingleLoop w W low urange zone rest

theorem wrapSub_interp (signed : Bool) (w : Nat) (hw : 0 < w) (low high : Nat)
    (hl : low < 2 ^ w) (hh : high < 2 ^ w)
    (hle : interp signed w low ≤ interp signed w high) :
    (wrapSub w high low : Int) = interp signed w high - interp signed w low := by
  have hM : (0 : Int) < 2 ^ w := by positivity
  have h2 : (wrapSub w high low : Int) = ((high : Int) + ((2 : Int) ^ w - low)) % 2 ^ w := by
    unfold wrapSub
    push_cast [Nat.cast_sub (le_of_lt hl)]
    ring_nf
  have e1 : ((high : Int) + ((2 : Int) ^ w - low)) % 2 ^ w = ((high : Int) - low) % 2 ^ w := by
    have hr : (high : Int) + ((2 : Int) ^ w - low) = ((high : Int) - low) + 2 ^ w * 1 := by ring
    rw [hr, Int.add_mul_emod_self_left]
  have e2 : (interp signed w high - interp signed w low) % (2 ^ w : Int)
      = ((high : Int) - low) % 2 ^ w := by
    conv_lhs => rw [Int.sub_emod]
    rw [interp_emod, interp_emod, ← Int.sub_emod]
  refine int_window_eq (2 ^ w) _ _ 0 hM ?_ ?_ ?_ ?_ ?_
  · rw [h2, Int.emod_emod_of_dvd _ dvd_rfl, e1, ← e2]
  · rw [h2]
    exact Int.emod_nonneg _ (ne_of_gt hM)
  · rw [h2, zero_add]
    exact Int.emod_lt_of_pos _ hM
  · omega
  · have hb1 := ibase_le_interp signed w low hw hl
    have hb2 := interp_lt_ibase_add signed w high hw hh
    omega

theorem wrapSub_toNat (signed : Bool) (w : Nat) (hw : 0 < w) (low high : Nat)
    (hl : low < 2 ^ w) (hh : high < 2 ^ w)
    (hle : interp signed w low ≤ interp signed w high) :
    wrapSub w high low = (interp signed w high - interp signed w low).toNat := by
  have h := wrapSub_interp signed w hw low high hl hh hle
  omega

theorem interp_sub_lt (signed : Bool) (w : Nat) (hw : 0 < w) (low high : Nat)
    (hl : low < 2 ^ w) (hh : high < 2 ^ w) :
    interp signed w high - interp signed w low < (2 ^ w : Int) := by
  have hb1 := ibase_le_interp signed w low hw hl
  have hb2 := interp_lt_ibase_add signed w high hw hh
  omega

theorem newInclusive_some (signed : Bool) (w : Nat) (low high : Nat)
    (hle : interp signed w low ≤ interp signed w high) :
    UniformInt.newInclusive signed w low high =
      some ⟨low, wrapAdd w (wrapSub w high low) 1,
        (2 ^ w - 1) -
          (if 0 < wrapAdd w (wrapSub w high low) 1 then
            (2 ^ w - 1 - wrapAdd w (wrapSub w high low) 1 + 1) %
              wrapAdd w (wrapSub w high low) 1
          else 0)⟩ := by
  simp [UniformInt.newInclusive, hle]

/-- The computed range pattern is the mathematical count of values in the
inclusive span, reduced modulo the span of the type. -/
theorem newInclusive_range_eq (signed : Bool) (w : Nat) (hw : 0 < w) (low high : Nat)
    (hl : low < 2 ^ w) (hh : high < 2 ^ w)
    (hle : interp signed w low ≤ interp signed w high)
    (u : UniformInt w) (hu : UniformInt.newInclusive signed w low high = some u) :
    u.range = ((interp signed w high - interp signed w low).toNat + 1) % 2 ^ w := by
  rw [newInclusive_some signed w low high hle] at hu
  obtain rfl := Option.some.inj hu
  simp only [wrapAdd]
  rw [wrapSub_toNat signed w hw low high hl hh hle]

theorem newInclusive_low_eq (signed : Bool) (w : Nat) (low high : Nat)
    (hle : interp signed w low ≤ interp signed w high)
    (u : UniformInt w) (hu : UniformInt.newInclusive signed w low high = some u) :
    u.low = low := by
  rw [newInclusive_some signed w low high hle] at hu
  obtain rfl := Option.some.inj hu
  rfl

theorem newInclusive_zone_eq (signed : Bool) (w : Nat) (low high : Nat)
    (hle : interp signed w low ≤ interp signed w high)
    (u : UniformInt w) (hu : UniformInt.newInclusive signed w low high = some u) :
    u.zone = (2 ^ w - 1) -
      (if 0 < u.range then (2 ^ w - 1 - u.range + 1) % u.range else 0) := by
  rw [newInclusive_some signed w low high hle] at hu
  obtain rfl := Option.some.inj hu
  rfl

/-- For a positive computed range, the range pattern is exactly the count of
values in the inclusive span. -/
theorem range_pos_eq (signed : Bool) (w : Nat) (hw : 0 < w) (low high : Nat)
    (hl : low < 2 ^ w) (hh : high < 2 ^ w)
    (hle : interp signed w low ≤ interp signed w high)
    (u : UniformInt w) (hu : UniformInt.newInclusive signed w low high = some u)
    (hpos : 0 < u.range) :
    (u.range : Int) = interp signed w high - interp signed w low + 1 := by
  have hr := newInclusive_range_eq signed w hw low high hl hh hle u hu
  have hdlt := interp_sub_lt signed w hw low high hl hh
  have hdge : 0 ≤ interp signed w high - interp signed w low := by omega
  have hcast : ((2 ^ w : Nat) : Int) = (2 : Int) ^ w := by push_cast; ring
  set nd : Nat := (interp signed w high - interp signed w low).toNat with hnd
  have hnd2 : nd + 1 ≤ 2 ^ w := by omega
  rcases Nat.lt_or_ge (nd + 1) (2 ^ w) with hcase | hcase
  · rw [Nat.mod_eq_of_lt hcase] at hr
    omega
  · have : nd + 1 = 2 ^ w := by omega
    rw [this, Nat.mod_self] at hr
    omega

/-- The range 0 sentinel means the inclusive span covers the whole type. -/
theorem range_zero_iff (signed : Bool) (w : Nat) (hw : 0 < w) (low high : Nat)
    (hl : low < 2 ^ w) (hh : high < 2 ^ w)
    (hle : interp signed w low ≤ interp signed w high)
    (u : UniformInt w) (hu : UniformInt.newInclusive signed w low high = some u) :
    (u.range = 0 ↔ interp signed w high - interp signed w low = (2 ^ w : Int) - 1) := by
  have hr := newInclusive_range_eq signed w hw low high hl hh hle u hu
  have hdlt := interp_sub_lt signed w hw low high hl hh
  have hdge : 0 ≤ interp signed w high - interp signed w low := by omega
  have hcast : ((2 ^ w : Nat) : Int) = (2 : Int) ^ w := by push_cast; ring
  set nd : Nat := (interp signed w high - interp signed w low).toNat with hnd
  have hnd2 : nd + 1 ≤ 2 ^ w := by omega
  constructor
  · intro h0
    rw [h0] at hr
    rcases Nat.lt_or_ge (nd + 1) (2 ^ w) with hcase | hcase
    · rw [Nat.mod_eq_of_lt hcase] at hr
      omega
    · omega
  · intro hfull
    have : nd + 1 = 2 ^ w := by omega
    rw [hr, this, Nat.mod_self]

/-- Splitting the span of the type at its half point, in Nat. -/
theorem pow_split (w : Nat) (hw : 0 < w) : 2 ^ w = 2 ^ (w - 1) * 2 := by
  rw [← pow_succ]
  congr 1
  omega

/-- The number of integers to reject is always less than half the span of the
type. -/
theorem ints_to_reject_lt_half (w r : Nat) (hw : 0 < w) (hr : 0 < r) (hr2 : r < 2 ^ w) :
    (2 ^ w - 1 - r + 1) % r < 2 ^ (w - 1) := by
  have hsplit := pow_split w hw
  have heq : 2 ^ w - 1 - r + 1 = 2 ^ w - r := by omega
  rw [heq]
  rcases le_or_lt r (2 ^ (w - 1)) with hcase | hcase
  · exact lt_of_lt_of_le (Nat.mod_lt _ hr) hcase
  · have hlt : 2 ^ w - r < r := by omega
    rw [Nat.mod_eq_of_lt hlt]
    omega

/-- Sign extension of a pattern with its top bit set: the value is the
original pattern with the high bits of the wider word filled with ones. -/
theorem signExtend_eq (w W z : Nat) (hw : 0 < w) (hwW : w ≤ W)
    (hz1 : 2 ^ (w - 1) ≤ z) (hz2 : z < 2 ^ w) :
    signExtend w W z = z + (2 ^ W - 2 ^ w) := by
  have hpow : (2 : Nat) ^ w ≤ 2 ^ W := Nat.pow_le_pow_right (by omega) hwW
  have hsplitI := int_pow_split w hw
  have hcastw : ((2 ^ w : Nat) : Int) = (2 : Int) ^ w := by push_cast; ring
  have hcastW : ((2 ^ W : Nat) : Int) = (2 : Int) ^ W := by push_cast; ring
  unfold signExtend interp
  rw [if_pos rfl, if_neg (by omega)]
  have h1 : (z : Int) - 2 ^ w = ((z : Int) + (2 ^ W - 2 ^ w)) + 2 ^ W * (-1) := by ring
  rw [h1, Int.add_mul_emod_self_left]
  have h2 : (0 : Int) ≤ (z : Int) + (2 ^ W - 2 ^ w) := by
    have : (2 : Int) ^ w ≤ 2 ^ W := by
      rw [← hcastw, ← hcastW]
      exact_mod_cast hpow
    omega
  have h3 : (z : Int) + (2 ^ W - 2 ^ w) < 2 ^ W := by
    have hzI : (z : Int) < (2 : Int) ^ w := by
      rw [← hcastw]
      exact_mod_cast hz2
    omega
  rw [Int.emod_eq_of_lt h2 h3]
  omega

/-- Facts about the zone of a constructed inclusive sampler with a positive
range: the rejected count is less than half the span, the top bit of the
zone is set, and sign extension to the working width fills the high bits
with ones. -/
theorem zone_facts (signed : Bool) (w : Nat) (hw : 0 < w) (low high : Nat)
    (hl : low < 2 ^ w) (hh : high < 2 ^ w)
    (hle : interp signed w low ≤ interp signed w high)
    (u : UniformInt w) (hu : UniformInt.newInclusive signed w low high = some u)
    (hpos : 0 < u.range) :
    2 ^ w - 1 - u.zone = (2 ^ w - 1 - u.range + 1) % u.range ∧
    2 ^ w - 1 - u.zone < 2 ^ (w - 1) ∧
    2 ^ (w - 1) ≤ u.zone ∧ u.zone < 2 ^ w := by
  have hz := newInclusive_zone_eq signed w low high hle u hu
  rw [if_pos hpos] at hz
  have hrlt : u.range < 2 ^ w := by
    have hr := newInclusive_range_eq signed w hw low high hl hh hle u hu
    have : 0 < 2 ^ w := by positivity
    rw [hr]
    exact Nat.mod_lt _ this
  have hitr := ints_to_reject_lt_half w u.range hw hpos hrlt
  have hsplit := pow_split w hw
  have hmodlt : (2 ^ w - 1 - u.range + 1) % u.range < u.range := Nat.mod_lt _ hpos
  refine ⟨by omega, by omega, by omega, by omega⟩

/-- Every value produced by a sampling step is a width w pattern. -/
theorem sampleStep_lt (w W : Nat) (hw : 0 < w) (u : UniformInt w) (draw x : Nat)
    (hx : u.sampleStep W draw = some x) : x < 2 ^ w := by
  have hM : 0 < 2 ^ w := by positivity
  unfold UniformInt.sampleStep wmulAccept at hx
  split at hx
  · simp only at hx
    split at hx
    · obtain rfl := Option.some.inj hx
      exact Nat.mod_lt _ hM
    · exact absurd hx (by simp)
  · obtain rfl := Option.some.inj hx
    exact Nat.mod_lt _ hM

/-- Core range-membership property of one sampling step of a constructed
inclusive sampler: any accepted value lies between low and high in the
native order. -/
theorem sampleStep_bounds (signed : Bool) (w W : Nat) (hw : 0 < w) (hwW : w ≤ W)
    (low high : Nat) (hl : low < 2 ^ w) (hh : high < 2 ^ w)
    (hle : interp signed w low ≤ interp signed w high)
    (u : UniformInt w) (hu : UniformInt.newInclusive signed w low high = some u)
    (draw x : Nat) (hx : u.sampleStep W draw = some x) :
    interp signed w low ≤ interp signed w x ∧
    interp signed w x ≤ interp signed w high := by
  have hM : 0 < 2 ^ w := by positivity
  have hLpos : 0 < 2 ^ W := by positivity
  have hxlt : x < 2 ^ w := sampleStep_lt w W hw u draw x hx
  have hlow := newInclusive_low_eq signed w low high hle u hu
  have hcast : ((2 ^ w : Nat) : Int) = (2 : Int) ^ w := by push_cast; ring
  unfold UniformInt.sampleStep wmulAccept at hx
  split at hx
  · rename_i hpos
    simp only at hx
    split at hx
    · obtain rfl := Option.some.inj hx
      set v : Nat := draw % 2 ^ W with hv
      have hvlt : v < 2 ^ W := Nat.mod_lt _ hLpos
      set hi : Nat := v * u.range / 2 ^ W with hhi
      have hrange := range_pos_eq signed w hw low high hl hh hle u hu hpos
      have hhilt : hi < u.range := by
        rw [hhi]
        rw [Nat.div_lt_iff_lt_mul hLpos]
        calc v * u.range < 2 ^ W * u.range := by
              exact mul_lt_mul_of_pos_right hvlt hpos
          _ = u.range * 2 ^ W := by ring
      have hhibound : (hi : Int) ≤ interp signed w high - interp signed w low := by omega
      have hrlt : u.range < 2 ^ w := by
        have hr := newInclusive_range_eq signed w hw low high hl hh hle u hu
        rw [hr]
        exact Nat.mod_lt _ hM
      have hhiw : hi % 2 ^ w = hi := Nat.mod_eq_of_lt (by omega)
      have hival : interp signed w (wrapAdd w u.low (hi % 2 ^ w)) =
          interp signed w low + hi := by
        rw [hhiw, hlow]
        apply interp_congr_eq signed w hw _ (Nat.mod_lt _ hM)
        · push_cast
          conv_rhs => rw [Int.add_emod, interp_emod]
          rw [Int.emod_emod_of_dvd _ dvd_rfl, Int.add_emod]
        · have := ibase_le_interp signed w low hw hl
          omega
        · have := interp_lt_ibase_add signed w high hw hh
          omega
      rw [hival]
      constructor
      · omega
      · omega
    · exact absurd hx (by simp)
  · rename_i hzero
    have h0 : u.range = 0 := by omega
    have hfull := (range_zero_iff signed w hw low high hl hh hle u hu).mp h0
    obtain rfl := Option.some.inj hx
    have hb1 := ibase_le_interp signed w low hw hl
    have hb2 := interp_lt_ibase_add signed w high hw hh
    have hb3 := ibase_le_interp signed w (draw % 2 ^ w) hw (Nat.mod_lt _ hM)
    have hb4 := interp_lt_ibase_add signed w (draw % 2 ^ w) hw (Nat.mod_lt _ hM)
    constructor
    · omega
    · omega

/-- Range membership for the full sampling loop. -/
theorem sampleList_bounds (signed : Bool) (w W : Nat) (hw : 0 < w) (hwW : w ≤ W)
    (low high : Nat) (hl : low < 2 ^ w) (hh : high < 2 ^ w)
    (hle : interp signed w low ≤ interp signed w high)
    (u : UniformInt w) (hu : UniformInt.newInclusive signed w low high = some u)
    (s : List Nat) (x : Nat) (rest : List Nat)
    (hx : u.sampleList W s = some (x, rest)) :
    interp signed w low ≤ interp signed w x ∧
    interp signed w x ≤ interp signed w high := by
  induction s with
  | nil => exact absurd hx (by simp [UniformInt.sampleList])
  | cons draw tail ih =>
    unfold UniformInt.sampleList at hx
    cases hstep : u.sampleStep W draw with
    | some y =>
      rw [hstep] at hx
      simp only at hx
      have h2 := Option.some.inj hx
      have hxy : y = x := congrArg Prod.fst h2
      subst hxy
      exact sampleStep_bounds signed w W hw hwW low high hl hh hle u hu draw y hstep
    | none =>
      rw [hstep] at hx
      exact ih hx

/-- Every value produced by the sampling loop is a width w pattern. -/
theorem sampleList_lt (w W : Nat) (hw : 0 < w) (u : UniformInt w)
    (s : List Nat) (x : Nat) (rest : List Nat)
    (hx : u.sampleList W s = some (x, rest)) : x < 2 ^ w := by
  induction s with
  | nil => exact absurd hx (by simp [UniformInt.sampleList])
  | cons draw tail ih =>
    unfold UniformInt.sampleList at hx
    cases hstep : u.sampleStep W draw with
    | some y =>
      rw [hstep] at hx
      simp only at hx
      have h2 := Option.some.inj hx
      have hxy : y = x := congrArg Prod.fst h2
      subst hxy
      exact sampleStep_lt w W hw u draw y hstep
    | none =>
      rw [hstep] at hx
      exact ih hx

/-- The sampling loop consumes at least one draw. -/
theorem sampleList_length (w W : Nat) (u : UniformInt w)
    (s : List Nat) (x : Nat) (rest : List Nat)
    (hx : u.sampleList W s = some (x, rest)) : rest.length < s.length := by
  induction s with
  | nil => exact absurd hx (by simp [UniformInt.sampleList])
  | cons draw tail ih =>
    unfold UniformInt.sampleList at hx
    cases hstep : u.sampleStep W draw with
    | some y =>
      rw [hstep] at hx
      simp only at hx
      have h2 := Option.some.inj hx
      have hrt : tail = rest := congrArg Prod.snd h2
      subst hrt
      simp
    | none =>
      rw [hstep] at hx
      have := ih hx
      simp only [List.length_cons]
      omega

/-- The checked subtraction high - 1 succeeds whenever high is not the
smallest representable value, and its result is the pattern of the
predecessor value. -/
theorem checkedSubOne_spec (signed : Bool) (w : Nat) (hw : 0 < w) (high : Nat)
    (hh : high < 2 ^ w) (hgt : ibase signed w < interp signed w high) :
    ∃ h1, checkedSubOne signed w high = some h1 ∧ h1 < 2 ^ w ∧
      interp signed w h1 = interp signed w high - 1 := by
  have hM : 0 < 2 ^ w := by positivity
  cases signed with
  | false =>
    have hpos : 0 < high := by
      by_contra h0
      have : high = 0 := by omega
      subst this
      simp [interp, ibase] at hgt
    refine ⟨high - 1, by simp [checkedSubOne]; omega, by omega, ?_⟩
    simp only [interp_false]
    push_cast [hpos]
    omega
  | true =>
    have hne : high ≠ 2 ^ (w - 1) := by
      intro heq
      subst heq
      have hlt : ¬(2 ^ (w - 1) < 2 ^ (w - 1)) := lt_irrefl _
      simp only [interp, ibase, if_true, if_neg hlt] at hgt
      have hsplitI := int_pow_split w hw
      have hc : ((2 ^ (w - 1) : Nat) : Int) = (2 : Int) ^ (w - 1) := by push_cast; ring
      omega
    refine ⟨wrapSub w high 1, by simp [checkedSubOne, hne], Nat.mod_lt _ hM, ?_⟩
    apply interp_congr_eq true w hw _ (Nat.mod_lt _ hM)
    · push_cast [Nat.one_le_two_pow]
      rw [Int.emod_emod_of_dvd _ dvd_rfl]
      have hr : (high : Int) + (2 ^ w - 1) = ((high : Int) - 1) + 2 ^ w * 1 := by ring
      rw [hr, Int.add_mul_emod_self_left]
      conv_rhs => rw [Int.sub_emod, interp_emod, ← Int.sub_emod]
    · omega
    · have := interp_lt_ibase_add true w high hw hh
      omega

/-- The half-open constructor under its precondition: high - 1 does not
overflow, the delegated precondition holds, and the construction is exactly
the inclusive construction on (low, high - 1). -/
theorem new_unfold (signed : Bool) (w : Nat) (hw : 0 < w) (low high : Nat)
    (hl : low < 2 ^ w) (hh : high < 2 ^ w)
    (hlt : interp signed w low < interp signed w high) :
    ∃ h1, checkedSubOne signed w high = some h1 ∧ h1 < 2 ^ w ∧
      interp signed w h1 = interp signed w high - 1 ∧
      interp signed w low ≤ interp signed w h1 ∧
      UniformInt.new signed w low high = UniformInt.newInclusive signed w low h1 := by
  have hgt : ibase signed w < interp signed w high :=
    lt_of_le_of_lt (ibase_le_interp signed w low hw hl) hlt
  obtain ⟨h1, hsome, hlt1, hval⟩ := checkedSubOne_spec signed w hw high hh hgt
  refine ⟨h1, hsome, hlt1, hval, by omega, ?_⟩
  unfold UniformInt.new
  rw [if_pos hlt, hsome]

/-- C1: for every supported integer type (any native width w and working
width W of the macro instantiations) and every well-ordered bound pair,
every value returned by sample on a sampler built with new lies in
[low, high), and on a sampler built with new_inclusive lies in [low, high],
for every sequence of raw draws. -/
theorem uniform_int_sample_in_range (signed : Bool) (w W : Nat) (hw : 0 < w)
    (hwW : w ≤ W) (low high : Nat) (hl : low < 2 ^ w) (hh : high < 2 ^ w) :
    (∀ u s x rest, interp signed w low < interp signed w high →
      UniformInt.new signed w low high = some u →
      u.sampleList W s = some (x, rest) →
      interp signed w low ≤ interp signed w x ∧
      interp signed w x < interp signed w high) ∧
    (∀ u s x rest, interp signed w low ≤ interp signed w high →
      UniformInt.newInclusive signed w low high = some u →
      u.sampleList W s = some (x, rest) →
      interp signed w low ≤ interp signed w x ∧
      interp signed w x ≤ interp signed w high) := by
  constructor
  · intro u s x rest hlt hu hs
    obtain ⟨h1, hsome, hlt1, hval, hle1, heq⟩ :=
      new_unfold signed w hw low high hl hh hlt
    rw [heq] at hu
    have hb := sampleList_bounds signed w W hw hwW low h1 hl hlt1 hle1 u hu s x rest hs
    constructor
    · exact hb.1
    · omega
  · intro u s x rest hle hu hs
    exact sampleList_bounds signed w W hw hwW low high hl hh hle u hu s x rest hs

theorem uniform_int_sample_in_range_witness :
    interp false 8 3 ≤ interp false 8 3 ∧ interp false 8 3 < interp false 8 10 :=
  (uniform_int_sample_in_range false 8 32 (by decide) (by decide) 3 10
      (by decide) (by decide)).1
    ⟨3, 7, 251⟩ [5] 3 [] (by decide) (by decide) (by decide)

/-- C2: new_inclusive computes the range by wrapping arithmetic over the
unsigned pattern (the count of values in the span, modulo the type span,
with a full-span range stored as the sentinel 0); for a positive range the
zone is unsigned_max minus (unsigned_max - range + 1) modulo range, and for
the sentinel the zone is unsigned_max (the modulus is never taken) and
sample returns the raw native-width draw unmodified. -/
theorem uniform_int_range_zone_formulas (signed : Bool) (w W : Nat) (hw : 0 < w)
    (hwW : w ≤ W) (low high : Nat) (hl : low < 2 ^ w) (hh : high < 2 ^ w)
    (hle : interp signed w low ≤ interp signed w high)
    (u : UniformInt w) (hu : UniformInt.newInclusive signed w low high = some u) :
    u.range = ((interp signed w high - interp signed w low).toNat + 1) % 2 ^ w ∧
    (u.range = 0 ↔ interp signed w high - interp signed w low = (2 ^ w : Int) - 1) ∧
    (0 < u.range → u.zone = (2 ^ w - 1) - ((2 ^ w - 1) - u.range + 1) % u.range) ∧
    (u.range = 0 → u.zone = 2 ^ w - 1 ∧
      ∀ draw, u.sampleStep W draw = some (draw % 2 ^ w)) := by
  refine ⟨newInclusive_range_eq signed w hw low high hl hh hle u hu,
    range_zero_iff signed w hw low high hl hh hle u hu, ?_, ?_⟩
  · intro hpos
    have hz := newInclusive_zone_eq signed w low high hle u hu
    rw [if_pos hpos] at hz
    exact hz
  · intro h0
    have hz := newInclusive_zone_eq signed w low high hle u hu
    rw [if_neg (by omega)] at hz
    refine ⟨by omega, ?_⟩
    intro draw
    unfold UniformInt.sampleStep
    rw [if_neg (by omega)]

theorem uniform_int_range_zone_formulas_witness :
    (⟨254, 5, 254⟩ : UniformInt 8).zone =
      (2 ^ 8 - 1) - ((2 ^ 8 - 1) - (⟨254, 5, 254⟩ : UniformInt 8).range + 1) %
        (⟨254, 5, 254⟩ : UniformInt 8).range :=
  (uniform_int_range_zone_formulas true 8 32 (by decide) (by decide) 254 2
      (by decide) (by decide) (by decide) ⟨254, 5, 254⟩ (by decide)).2.2.1 (by decide)

/-- C5: a sampler built with new_inclusive (low, low) returns exactly low on
every sample call, whatever the raw draws: the range collapses to 1 and the
rejection test accepts the first draw. -/
theorem inclusive_singleton_returns_low (signed : Bool) (w W : Nat) (hw : 0 < w)
    (hwW : w ≤ W) (low : Nat) (hl : low < 2 ^ w) :
    ∃ u, UniformInt.newInclusive signed w low low = some u ∧
      ∀ draw rest, u.sampleList W (draw :: rest) = some (low, rest) := by
  have hM : 0 < 2 ^ w := by positivity
  have h2w : 1 < 2 ^ w := by
    calc 1 < 2 ^ 1 := by norm_num
      _ ≤ 2 ^ w := Nat.pow_le_pow_right (by norm_num) hw
  have hWw : (2 : Nat) ^ w ≤ 2 ^ W := Nat.pow_le_pow_right (by norm_num) hwW
  have hsub : wrapSub w low low = 0 := by
    unfold wrapSub
    have hlw : low + (2 ^ w - low) = 2 ^ w := by omega
    rw [hlw, Nat.mod_self]
  have hur : wrapAdd w (wrapSub w low low) 1 = 1 := by
    rw [hsub]
    unfold wrapAdd
    simp [Nat.mod_eq_of_lt h2w]
  have hsplit := pow_split w hw
  refine ⟨⟨low, 1, 2 ^ w - 1⟩, ?_, ?_⟩
  · rw [newInclusive_some signed w low low le_rfl, hur]
    simp [Nat.mod_one]
  · intro draw rest
    have hstep : UniformInt.sampleStep W (⟨low, 1, 2 ^ w - 1⟩ : UniformInt w) draw = some low := by
      unfold UniformInt.sampleStep wmulAccept
      rw [if_pos (by norm_num)]
      have hse := signExtend_eq w W (2 ^ w - 1) hw hwW (by omega) (by omega)
      simp only [hse, mul_one]
      have hv : draw % 2 ^ W < 2 ^ W := Nat.mod_lt _ (by positivity)
      rw [if_pos (by omega), Nat.div_eq_of_lt hv]
      simp [wrapAdd, Nat.mod_eq_of_lt hl]
    unfold UniformInt.sampleList
    rw [hstep]

theorem inclusive_singleton_returns_low_witness :
    ∃ u, UniformInt.newInclusive true 8 200 200 = some u ∧
      ∀ draw rest, u.sampleList 32 (draw :: rest) = some (200, rest) :=
  inclusive_singleton_returns_low true 8 32 (by decide) (by decide) 200 (by decide)

/-- C10: under the precondition low strictly below high, the half-open
constructor computes high - 1 without overflow, the delegated inclusive
precondition low at most high - 1 holds, and new (low, high) is exactly
new_inclusive (low, high - 1). -/
theorem new_delegates_to_new_inclusive (signed : Bool) (w : Nat) (hw : 0 < w)
    (low high : Nat) (hl : low < 2 ^ w) (hh : high < 2 ^ w)
    (hlt : interp signed w low < interp signed w high) :
    ∃ h1, checkedSubOne signed w high = some h1 ∧
      interp signed w h1 = interp signed w high - 1 ∧
      interp signed w low ≤ interp signed w h1 ∧
      UniformInt.new signed w low high = UniformInt.newInclusive signed w low h1 := by
  obtain ⟨h1, hsome, hlt1, hval, hle1, heq⟩ := new_unfold signed w hw low high hl hh hlt
  exact ⟨h1, hsome, hval, hle1, heq⟩

theorem new_delegates_to_new_inclusive_witness :
    ∃ h1, checkedSubOne true 8 129 = some h1 ∧
      interp true 8 h1 = interp true 8 (129 : Nat) - 1 ∧
      interp true 8 (128 : Nat) ≤ interp true 8 h1 ∧
      UniformInt.new true 8 128 129 = UniformInt.newInclusive true 8 128 h1 :=
  new_delegates_to_new_inclusive true 8 (by decide) 128 129 (by decide) (by decide)
    (by decide)

/-- C4: for a positive range, the rejected count unsigned_max - zone equals
(unsigned_max - range + 1) modulo range and is strictly below half the type
span, so the top bit of the zone is always set and the sign extension used
by sample equals the zone with the high bits of the wider word filled with
ones. -/
theorem zone_top_bit_and_sign_extension (signed : Bool) (w W : Nat) (hw : 0 < w)
    (hwW : w ≤ W) (low high : Nat) (hl : low < 2 ^ w) (hh : high < 2 ^ w)
    (hle : interp signed w low ≤ interp signed w high)
    (u : UniformInt w) (hu : UniformInt.newInclusive signed w low high = some u)
    (hpos : 0 < u.range) :
    2 ^ w - 1 - u.zone = (2 ^ w - 1 - u.range + 1) % u.range ∧
    2 ^ w - 1 - u.zone < 2 ^ (w - 1) ∧
    2 ^ (w - 1) ≤ u.zone ∧ u.zone < 2 ^ w ∧
    u.zone.testBit (w - 1) = true ∧
    signExtend w W u.zone = u.zone + (2 ^ W - 2 ^ w) := by
  obtain ⟨hz1, hz2, hz3, hz4⟩ :=
    zone_facts signed w hw low high hl hh hle u hu hpos
  have hsplit := pow_split w hw
  have htb : u.zone.testBit (w - 1) = true := by
    rw [Nat.testBit_to_div_mod]
    have hdiv : u.zone / 2 ^ (w - 1) = 1 := by
      apply Nat.div_eq_of_lt_le
      · omega
      · omega
    rw [hdiv]
    decide
  exact ⟨hz1, hz2, hz3, hz4, htb,
    signExtend_eq w W u.zone hw hwW hz3 hz4⟩

/-- The branch condition of sample_single (the native maximum is at most
the 16 bit maximum truncated to the native type) holds exactly for native
widths of at most 16 bits. -/
theorem clz_branch_iff (w : Nat) (hw : 0 < w) :
    (2 ^ w - 1 ≤ (2 ^ 16 - 1) % 2 ^ w) ↔ w ≤ 16 := by
  constructor
  · intro h
    by_contra hgt
    push_neg at hgt
    have hpow : (2 : Nat) ^ 16 < 2 ^ w := Nat.pow_lt_pow_right (by norm_num) (by omega)
    have h16 : (2 : Nat) ^ 16 - 1 < 2 ^ w := by omega
    rw [Nat.mod_eq_of_lt h16] at h
    omega
  · intro h
    have hsplit : (2 : Nat) ^ 16 = 2 ^ (16 - w) * 2 ^ w := by
      rw [← pow_add]
      congr 1
      omega
    have hp : 1 ≤ (2 : Nat) ^ (16 - w) := Nat.one_le_two_pow
    have hq : 1 ≤ (2 : Nat) ^ w := Nat.one_le_two_pow
    have hab : (2 : Nat) ^ w ≤ 2 ^ (16 - w) * 2 ^ w := Nat.le_mul_of_pos_left _ hp
    have hmul : ((2 : Nat) ^ (16 - w) - 1) * 2 ^ w = 2 ^ (16 - w) * 2 ^ w - 2 ^ w :=
      Nat.sub_one_mul _ _
    have h1 : (2 : Nat) ^ 16 - 1 = (2 ^ (16 - w) - 1) * 2 ^ w + (2 ^ w - 1) := by
      rw [hsplit, hmul]
      omega
    rw [h1, Nat.mul_comm ((2 : Nat) ^ (16 - w) - 1) (2 ^ w), Nat.mul_add_mod,
      Nat.mod_eq_of_lt (by omega)]

/-- The approximate zone of sample_single fits in the working width. -/
theorem approx_zone_lt (W r : Nat) (hr : 0 < r) (hrW : r < 2 ^ W) :
    r * 2 ^ (W - (Nat.log2 r + 1)) < 2 ^ W := by
  have hblen : Nat.log2 r < W := (Nat.log2_lt (by omega)).mpr hrW
  have hrb : r < 2 ^ (Nat.log2 r + 1) := (Nat.log2_lt (by omega)).mp (by omega)
  calc r * 2 ^ (W - (Nat.log2 r + 1))
      < 2 ^ (Nat.log2 r + 1) * 2 ^ (W - (Nat.log2 r + 1)) :=
        mul_lt_mul_of_pos_right hrb (by positivity)
    _ = 2 ^ W := by
        rw [← pow_add]
        congr 1
        omega

/-- The approximate zone exceeds the exact working-width zone by at most
one. -/
theorem approx_zone_le (W r : Nat) (hr : 0 < r) (hrW : r < 2 ^ W) :
    r * 2 ^ (W - (Nat.log2 r + 1)) ≤
      ((2 ^ W - 1) - ((2 ^ W - 1) - r + 1) % r) + 1 := by
  have hLpos : 0 < 2 ^ W := by positivity
  have hz0 := approx_zone_lt W r hr hrW
  have hsub : 2 ^ W - 1 - r + 1 = 2 ^ W - r := by omega
  rw [hsub]
  have hmod : (2 ^ W - r) % r = 2 ^ W % r := by
    conv_rhs => rw [show (2 : Nat) ^ W = (2 ^ W - r) + r by omega]
    rw [Nat.add_mod_right]
  rw [hmod]
  have hdm := Nat.div_add_mod (2 ^ W) r
  have hmlt : 2 ^ W % r < r := Nat.mod_lt _ hr
  have hcomm : 2 ^ (W - (Nat.log2 r + 1)) * r = r * 2 ^ (W - (Nat.log2 r + 1)) :=
    Nat.mul_comm _ _
  have hle2 : 2 ^ (W - (Nat.log2 r + 1)) ≤ 2 ^ W / r := by
    rw [Nat.le_div_iff_mul_le hr]
    omega
  have hfin : r * 2 ^ (W - (Nat.log2 r + 1)) ≤ r * (2 ^ W / r) :=
    Nat.mul_le_mul_left r hle2
  omega

/-- For a positive range, the sampling step of the persistent sampler is
exactly the shared widening-multiply accept test. -/
theorem sampleStep_eq_wmulAccept (w W : Nat) (u : UniformInt w) (hpos : 0 < u.range)
    (draw : Nat) :
    u.sampleStep W draw = wmulAccept w W u.low u.range (signExtend w W u.zone) draw := by
  unfold UniformInt.sampleStep
  rw [if_pos hpos]

/-- C7 (amended): sample_single recomputes the range directly; for native
widths of at most 16 bits its zone is the exact working-width modulus, and
for wider types it is the approximation range shifted left by its leading
zero count, which never exceeds the exact zone by more than one; the
rejection loop is the same widening-multiply accept test as the persistent
sampler. -/
theorem sample_single_zone_conservative (signed : Bool) (w W : Nat) (hw : 0 < w)
    (hwW : w ≤ W) (low high : Nat) (hl : low < 2 ^ w) (hh : high < 2 ^ w)
    (hlt : interp signed w low < interp signed w high) :
    ∃ r z, sampleSingleParams signed w W low high = some (r, z) ∧
      (r : Int) = interp signed w high - interp signed w low ∧ 0 < r ∧
      (w ≤ 16 → z = (2 ^ W - 1) - ((2 ^ W - 1) - r + 1) % r) ∧
      (16 < w → z = r * 2 ^ (W - (Nat.log2 r + 1)) ∧
        z ≤ ((2 ^ W - 1) - ((2 ^ W - 1) - r + 1) % r) + 1) ∧
      (∀ u : UniformInt w, 0 < u.range → ∀ draw,
        u.sampleStep W draw = wmulAccept w W u.low u.range (signExtend w W u.zone) draw) := by
  have hle := le_of_lt hlt
  have hparams : sampleSingleParams signed w W low high =
      some (wrapSub w high low,
        if 2 ^ w - 1 ≤ (2 ^ 16 - 1) % 2 ^ w then
          (2 ^ W - 1) - ((2 ^ W - 1) - wrapSub w high low + 1) % wrapSub w high low
        else wrapSub w high low * 2 ^ (W - (Nat.log2 (wrapSub w high low) + 1)) % 2 ^ W) := by
    simp [sampleSingleParams, hlt]
  have hr_int := wrapSub_interp signed w hw low high hl hh hle
  set r := wrapSub w high low with hrdef
  have hrpos : 0 < r := by omega
  have hrlt : r < 2 ^ w := by
    have : 0 < 2 ^ w := by positivity
    rw [hrdef]
    unfold wrapSub
    exact Nat.mod_lt _ this
  have hrW : r < 2 ^ W := lt_of_lt_of_le hrlt (Nat.pow_le_pow_right (by norm_num) hwW)
  by_cases hw16 : w ≤ 16
  · have hcond := (clz_branch_iff w hw).mpr hw16
    rw [if_pos hcond] at hparams
    exact ⟨r, _, hparams, hr_int, hrpos, fun _ => rfl,
      fun hgt => absurd hw16 (by omega),
      fun u hpos draw => sampleStep_eq_wmulAccept w W u hpos draw⟩
  · have hcond : ¬(2 ^ w - 1 ≤ (2 ^ 16 - 1) % 2 ^ w) := fun hc =>
      hw16 ((clz_branch_iff w hw).mp hc)
    rw [if_neg hcond, Nat.mod_eq_of_lt (approx_zone_lt W r hrpos hrW)] at hparams
    exact ⟨r, _, hparams, hr_int, hrpos, fun h16 => absurd h16 hw16,
      fun _ => ⟨rfl, approx_zone_le W r hrpos hrW⟩,
      fun u hpos draw => sampleStep_eq_wmulAccept w W u hpos draw⟩

theorem sample_single_zone_conservative_witness :
    ∃ r z, sampleSingleParams false 8 32 0 10 = some (r, z) ∧
      (r : Int) = interp false 8 10 - interp false 8 0 ∧ 0 < r ∧
      (8 ≤ 16 → z = (2 ^ 32 - 1) - ((2 ^ 32 - 1) - r + 1) % r) ∧
      (16 < 8 → z = r * 2 ^ (32 - (Nat.log2 r + 1)) ∧
        z ≤ ((2 ^ 32 - 1) - ((2 ^ 32 - 1) - r + 1) % r) + 1) ∧
      (∀ u : UniformInt 8, 0 < u.range → ∀ draw,
        u.sampleStep 32 draw = wmulAccept 8 32 u.low u.range (signExtend 8 32 u.zone) draw) :=
  sample_single_zone_conservative false 8 32 (by decide) (by decide) 0 10
    (by decide) (by decide) (by decide)

/-- C7 counterexample: for the 32 bit unsigned type with low 0 and high
2147483649 (range 2 ^ 31 + 1), the approximate zone computed by
sample_single is 2147483649, strictly greater than the exact zone
2147483648, and on the raw draw 1 the approximate zone accepts a value that
the exact zone rejects. -/
theorem sample_single_zone_counterexample :
    sampleSingleParams false 32 32 0 2147483649 = some (2147483649, 2147483649) ∧
    (2 ^ 32 - 1) - ((2 ^ 32 - 1) - 2147483649 + 1) % 2147483649 = 2147483648 ∧
    ¬(2147483649 ≤ 2147483648) ∧
    wmulAccept 32 32 0 2147483649 2147483649 1 = some 0 ∧
    wmulAccept 32 32 0 2147483649 2147483648 1 = none := by
  have hws : wrapSub 32 2147483649 0 = 2147483649 := by decide
  have hlog : Nat.log2 2147483649 = 31 := by
    have h1 : Nat.log2 2147483649 < 32 := (Nat.log2_lt (by norm_num)).mpr (by norm_num)
    have h2 : 31 ≤ Nat.log2 2147483649 := (Nat.le_log2 (by norm_num)).mpr (by norm_num)
    omega
  refine ⟨?_, by decide, by decide, by decide, by decide⟩
  have hlt : interp false 32 0 < interp false 32 2147483649 := by
    simp only [interp_false]
    norm_num
  have hcond : ¬(2 ^ 32 - 1 ≤ (2 ^ 16 - 1) % 2 ^ 32) := by decide
  have hparams : sampleSingleParams false 32 32 0 2147483649 =
      some (wrapSub 32 2147483649 0,
        wrapSub 32 2147483649 0 *
          2 ^ (32 - (Nat.log2 (wrapSub 32 2147483649 0) + 1)) % 2 ^ 32) := by
    simp only [sampleSingleParams, if_pos hlt, if_neg hcond]
  rw [hws, hlog] at hparams
  rw [hparams]
  decide

theorem zone_top_bit_and_sign_extension_witness :
    2 ^ (8 - 1) ≤ (⟨0, 10, 249⟩ : UniformInt 8).zone ∧
    signExtend 8 32 (⟨0, 10, 249⟩ : UniformInt 8).zone =
      (⟨0, 10, 249⟩ : UniformInt 8).zone + (2 ^ 32 - 2 ^ 8) := by
  have h := zone_top_bit_and_sign_extension false 8 32 (by decide) (by decide) 0 9
    (by decide) (by decide) (by decide) ⟨0, 10, 249⟩ (by decide) (by decide)
  exact ⟨h.2.2.1, h.2.2.2.2.2⟩

/-- The floating-point back-end state (struct UniformFloat).  The scalar
float type and its arithmetic are abstracted as a type F with order,
subtraction, multiplication and addition; every theorem below holds for any
instantiation of these operations, in particular for IEEE binary32 and
binary64 arithmetic, whose bit-level rounding is outside this embedding. -/
structure UniformFloat (F : Type) where
  scale : F
  offset : F

/-- UniformFloat new: assert low strictly below high, then store
scale = high - low and offset = low - scale. -/
def UniformFloat.new {F : Type} [LinearOrder F] [Sub F] (low high : F) :
    Option (UniformFloat F) :=
  if low < high then
    let scale := high - low
    some ⟨scale, low - scale⟩
  else
    none

/-- UniformFloat new_inclusive: assert low at most high, then store the same
scale and offset as new. -/
def UniformFloat.newInclusive {F : Type} [LinearOrder F] [Sub F] (low high : F) :
    Option (UniformFloat F) :=
  if low ≤ high then
    let scale := high - low
    some ⟨scale, low - scale⟩
  else
    none

/-- UniformFloat sample, after the raw draw has been converted into the
value value1_2 in [1, 2): multiply by scale then add offset, in exactly
this grouping. -/
def UniformFloat.sample {F : Type} [Mul F] [Add F] (u : UniformFloat F)
    (value1_2 : F) : F :=
  value1_2 * u.scale + u.offset

/-- UniformFloat sample_single: assert low strictly below high, recompute
scale and offset, and apply the same affine map to the converted draw. -/
def UniformFloat.sampleSingle {F : Type} [LinearOrder F] [Sub F] [Mul F] [Add F]
    (low high : F) (value1_2 : F) : Option F :=
  if low < high then
    let scale := high - low
    let offset := low - scale
    some (value1_2 * scale + offset)
  else
    none

/-- C8: for float bounds with low strictly below high, new and new_inclusive
produce identical internal state, namely scale = high - low and
offset = low - scale, and sample computes value1_2 times scale plus offset
in that grouping. -/
theorem uniform_float_state_and_sample {F : Type} [LinearOrder F] [Sub F] [Mul F]
    [Add F] (low high : F) (hlt : low < high) :
    UniformFloat.new low high = UniformFloat.newInclusive low high ∧
    UniformFloat.new low high = some ⟨high - low, low - (high - low)⟩ ∧
    (∀ u : UniformFloat F, UniformFloat.new low high = some u →
      ∀ v, u.sample v = v * (high - low) + (low - (high - low))) := by
  have hle := le_of_lt hlt
  refine ⟨?_, ?_, ?_⟩
  · simp [UniformFloat.new, UniformFloat.newInclusive, hlt, hle]
  · simp [UniformFloat.new, hlt]
  · intro u hu v
    simp only [UniformFloat.new, if_pos hlt] at hu
    obtain rfl := Option.some.inj hu
    rfl

theorem uniform_float_state_and_sample_witness :
    UniformFloat.new (0 : Int) 1 = UniformFloat.newInclusive (0 : Int) 1 ∧
    UniformFloat.new (0 : Int) 1 = some ⟨1 - 0, 0 - (1 - 0)⟩ ∧
    (∀ u : UniformFloat Int, UniformFloat.new (0 : Int) 1 = some u →
      ∀ v, u.sample v = v * (1 - 0) + (0 - (1 - 0))) :=
  uniform_float_state_and_sample (0 : Int) 1 (by norm_num)

/-- The front-end facade (struct Uniform) holding one integer back-end
instance. -/
structure Uniform (w : Nat) where
  inner : UniformInt w
deriving DecidableEq

/-- Uniform::new: delegate to the back-end constructor. -/
def Uniform.new (signed : Bool) (w : Nat) (low high : Nat) : Option (Uniform w) :=
  (UniformInt.new signed w low high).map Uniform.mk

/-- Uniform::new_inclusive: delegate to the back-end constructor. -/
def Uniform.newInclusive (signed : Bool) (w : Nat) (low high : Nat) :
    Option (Uniform w) :=
  (UniformInt.newInclusive signed w low high).map Uniform.mk

/-- Distribution::sample for Uniform: forward to the back-end. -/
def Uniform.sampleList {w : Nat} (W : Nat) (u : Uniform w) (s : List Nat) :
    Option (Nat × List Nat) :=
  u.inner.sampleList W s

/-- core::ops::Range over an integer type: the native half-open range
notation start..end.  The Rust field named end is a Lean keyword and is
modelled as the field stop. -/
structure NatRange where
  start : Nat
  stop : Nat

/-- The From conversion of a native integer range into Uniform:
Uniform::new (r.start, r.end). -/
def Uniform.fromRange (signed : Bool) (w : Nat) (r : NatRange) : Option (Uniform w) :=
  Uniform.new signed w r.start r.stop

/-- core::ops::Range over a float type. -/
structure FloatRange (F : Type) where
  start : F
  stop : F

/-- The From conversion of a native float range into the float sampler. -/
def UniformFloat.fromRange {F : Type} [LinearOrder F] [Sub F] (r : FloatRange F) :
    Option (UniformFloat F) :=
  UniformFloat.new r.start r.stop

/-- C9: converting a native half-open range start..end with start strictly
below end yields a sampler with internal state identical to direct
construction with new (start, end), for the integer and the float
back-ends, and that construction succeeds. -/
theorem from_range_matches_new (signed : Bool) (w : Nat) (hw : 0 < w)
    (st en : Nat) (hs : st < 2 ^ w) (he : en < 2 ^ w)
    (hlt : interp signed w st < interp signed w en)
    {F : Type} [LinearOrder F] [Sub F] (fs fe : F) (hflt : fs < fe) :
    Uniform.fromRange signed w ⟨st, en⟩ = Uniform.new signed w st en ∧
    (Uniform.new signed w st en).isSome ∧
    UniformFloat.fromRange ⟨fs, fe⟩ = UniformFloat.new fs fe ∧
    (UniformFloat.new fs fe).isSome := by
  refine ⟨rfl, ?_, rfl, ?_⟩
  · obtain ⟨h1, hsome, hval, hle1a, hle1, heq⟩ := new_unfold signed w hw st en hs he hlt
    rw [Uniform.new, heq, newInclusive_some signed w st h1 hle1]
    rfl
  · simp [UniformFloat.new, hflt]

theorem from_range_matches_new_witness :
    Uniform.fromRange false 16 ⟨2, 7⟩ = Uniform.new false 16 2 7 ∧
    (Uniform.new false 16 2 7).isSome ∧
    UniformFloat.fromRange ⟨(2 : Int), 7⟩ = UniformFloat.new (2 : Int) 7 ∧
    (UniformFloat.new (2 : Int) 7).isSome :=
  from_range_matches_new false 16 (by decide) 2 7 (by decide) (by decide) (by decide)
    (2 : Int) 7 (by norm_num)

/-- Nanoseconds per second, the sub-unit modulus of std::time::Duration. -/
def nanosPerSec : Nat := 1000000000

/-- std::time::Duration: a 64 bit unsigned count of whole seconds and a
nanosecond part below nanosPerSec; those two range conditions are the
well-formedness predicate wf below, maintained by the Rust type. -/
structure Duration where
  secs : Nat
  nanos : Nat
deriving DecidableEq

/-- The representation invariant of std::time::Duration. -/
def Duration.wf (d : Duration) : Prop := d.secs < 2 ^ 64 ∧ d.nanos < nanosPerSec

instance (d : Duration) : Decidable d.wf := by
  unfold Duration.wf
  infer_instance

/-- Total value of a duration in nanoseconds. -/
def Duration.toNanos (d : Duration) : Nat := d.secs * nanosPerSec + d.nanos

/-- The strict Duration order: lexicographic on (secs, nanos). -/
def durLt (a b : Duration) : Prop :=
  a.secs < b.secs ∨ (a.secs = b.secs ∧ a.nanos < b.nanos)

/-- The Duration order: lexicographic on (secs, nanos). -/
def durLe (a b : Duration) : Prop :=
  a.secs < b.secs ∨ (a.secs = b.secs ∧ a.nanos ≤ b.nanos)

instance (a b : Duration) : Decidable (durLt a b) := by
  unfold durLt
  infer_instance

instance (a b : Duration) : Decidable (durLe a b) := by
  unfold durLe
  infer_instance

theorem durLe_iff_toNanos (a b : Duration) (ha : a.nanos < nanosPerSec)
    (hb : b.nanos < nanosPerSec) : durLe a b ↔ a.toNanos ≤ b.toNanos := by
  unfold durLe Duration.toNanos nanosPerSec at *
  omega

theorem durLt_iff_toNanos (a b : Duration) (ha : a.nanos < nanosPerSec)
    (hb : b.nanos < nanosPerSec) : durLt a b ↔ a.toNanos < b.toNanos := by
  unfold durLt Duration.toNanos nanosPerSec at *
  omega

/-- Rust Duration subtraction (panic on underflow modelled as none):
subtract the second counts, borrowing from the nanosecond part when
needed. -/
def Duration.checkedSub (a b : Duration) : Option Duration :=
  if b.secs ≤ a.secs then
    if b.nanos ≤ a.nanos then
      some ⟨a.secs - b.secs, a.nanos - b.nanos⟩
    else if b.secs < a.secs then
      some ⟨a.secs - b.secs - 1, a.nanos + nanosPerSec - b.nanos⟩
    else
      none
  else
    none

/-- Rust Duration addition (panic on overflow of the 64 bit second count
modelled as none): add the parts, carrying nanosecond overflow into the
seconds. -/
def Duration.checkedAdd (a b : Duration) : Option Duration :=
  let totalNanos := a.nanos + b.nanos
  let secs := a.secs + b.secs + totalNanos / nanosPerSec
  if secs < 2 ^ 64 then some ⟨secs, totalNanos % nanosPerSec⟩ else none

theorem checkedSub_spec (a b : Duration) (ha : a.nanos < nanosPerSec)
    (hb : b.nanos < nanosPerSec) (hle : durLe b a) :
    ∃ c, a.checkedSub b = some c ∧ c.toNanos = a.toNanos - b.toNanos ∧
      c.nanos < nanosPerSec ∧ c.secs ≤ a.secs := by
  unfold Duration.checkedSub
  unfold durLe at hle
  rcases le_or_lt b.nanos a.nanos with hn | hn
  · have hs : b.secs ≤ a.secs := by omega
    rw [if_pos hs, if_pos hn]
    refine ⟨_, rfl, ?_, ?_, ?_⟩
    · unfold Duration.toNanos nanosPerSec at *
      simp only
      omega
    · simp only
      omega
    · simp only
      omega
  · have hs : b.secs < a.secs := by omega
    rw [if_pos (le_of_lt hs), if_neg (by omega), if_pos hs]
    refine ⟨_, rfl, ?_, ?_, ?_⟩
    · unfold Duration.toNanos nanosPerSec at *
      simp only
      omega
    · unfold nanosPerSec at *
      simp only
      omega
    · simp only
      omega

theorem checkedAdd_spec (a b : Duration) (ha : a.nanos < nanosPerSec)
    (hb : b.nanos < nanosPerSec)
    (hsum : a.toNanos + b.toNanos < 2 ^ 64 * nanosPerSec) :
    ∃ c, a.checkedAdd b = some c ∧ c.toNanos = a.toNanos + b.toNanos ∧
      c.nanos < nanosPerSec ∧ c.secs < 2 ^ 64 := by
  unfold Duration.checkedAdd
  have hdm := Nat.div_add_mod (a.nanos + b.nanos) nanosPerSec
  have hsecs : a.secs + b.secs + (a.nanos + b.nanos) / nanosPerSec < 2 ^ 64 := by
    unfold Duration.toNanos nanosPerSec at *
    omega
  rw [if_pos hsecs]
  refine ⟨_, rfl, ?_, ?_, hsecs⟩
  · unfold Duration.toNanos nanosPerSec at *
    simp only
    omega
  · unfold nanosPerSec at *
    simp only
    omega

/-- enum UniformDurationMode: the small mode holds one merged nanosecond
sampler (a facade over the u64 back-end); the large mode holds the range
size and a whole-second sampler. -/
inductive UniformDurationMode where
  | small (nanos : Uniform 64)
  | large (size : Duration) (secs : Uniform 64)
deriving DecidableEq

/-- struct UniformDuration. -/
structure UniformDuration where
  offset : Duration
  mode : UniformDurationMode
deriving DecidableEq

/-- UniformSampler::new_inclusive for UniformDuration: assert low at most
high, compute size = high - low, and try to express size as one u64
nanosecond count (checked multiply by nanosPerSec, then checked add of the
nanosecond part); on success build the small mode with one merged inclusive
sampler over [0, count], otherwise the large mode with an inclusive
whole-second sampler over [0, size.secs]. -/
def UniformDuration.newInclusive (low high : Duration) : Option UniformDuration :=
  if durLe low high then
    match high.checkedSub low with
    | none => none
    | some size =>
      let nanosOpt : Option Nat :=
        if size.secs * nanosPerSec < 2 ^ 64 then
          if size.secs * nanosPerSec + size.nanos < 2 ^ 64 then
            some (size.secs * nanosPerSec + size.nanos)
          else
            none
        else
          none
      match nanosOpt with
      | some n =>
        match Uniform.newInclusive false 64 0 n with
        | some nanosU => some ⟨low, UniformDurationMode.small nanosU⟩
        | none => none
      | none =>
        match Uniform.newInclusive false 64 0 size.secs with
        | some secsU => some ⟨low, UniformDurationMode.large size secsU⟩
        | none => none
  else
    none

/-- UniformSampler::new for UniformDuration: assert low strictly below high
and delegate to new_inclusive with upper bound high minus one nanosecond. -/
def UniformDuration.new (low high : Duration) : Option UniformDuration :=
  if durLt low high then
    match high.checkedSub ⟨0, 1⟩ with
    | none => none
    | some h1 => UniformDuration.newInclusive low h1
  else
    none

/-- The rejection loop of UniformDuration::sample in large mode: draw a
whole-second count through the stored sampler and a nanosecond count
through the fresh [0, nanosPerSec) sampler, in order from the shared draw
list, and accept the candidate exactly when it is at most size.  The
unbounded source loop is modelled with the length of the remaining draw
list as fuel: since every iteration consumes at least one draw, the loop
returns through the accept branch or exhausts the list (none). -/
def sampleLargeAux (size : Duration) (secsU : Uniform 64) (nanoU : Uniform 32) :
    Nat → List Nat → Option Duration
  | 0, _ => none
  | fuel + 1, s =>
    match secsU.sampleList 64 s with
    | none => none
    | some (sv, r1) =>
      match nanoU.sampleList 32 r1 with
      | none => none
      | some (nv, r2) =>
        let d : Duration := ⟨sv, nv⟩
        if durLe d size then some d
        else sampleLargeAux size secsU nanoU fuel r2

/-- UniformDuration::sample: the small mode draws one merged nanosecond
count and splits it by division and modulus against nanosPerSec; the large
mode builds the fresh nanosecond range sampler and runs the rejection loop;
both add the offset with Duration addition. -/
def UniformDuration.sample (u : UniformDuration) (s : List Nat) : Option Duration :=
  match u.mode with
  | UniformDurationMode.small nanosU =>
    match nanosU.sampleList 64 s with
    | none => none
    | some (n, _) =>
      u.offset.checkedAdd ⟨n / nanosPerSec, n % nanosPerSec⟩
  | UniformDurationMode.large size secsU =>
    match Uniform.new false 32 0 nanosPerSec with
    | none => none
    | some nanoU =>
      match sampleLargeAux size secsU nanoU s.length s with
      | none => none
      | some d => u.offset.checkedAdd d

/-- The facade inclusive constructor exposes the back-end instance. -/
theorem facade_newInclusive_inner (signed : Bool) (w : Nat) (low high : Nat)
    (U : Uniform w) (hU : Uniform.newInclusive signed w low high = some U) :
    UniformInt.newInclusive signed w low high = some U.inner := by
  unfold Uniform.newInclusive at hU
  cases h : UniformInt.newInclusive signed w low high with
  | none => rw [h] at hU; exact absurd hU (by simp)
  | some val =>
    rw [h] at hU
    have hval : Uniform.mk val = U := Option.some.inj hU
    rw [← hval]

/-- The facade inclusive constructor over the unsigned reading with lower
bound 0 always succeeds. -/
theorem unsigned_newInclusive_isSome (w b : Nat) (hb : b < 2 ^ w) :
    ∃ U : Uniform w, Uniform.newInclusive false w 0 b = some U := by
  have hle : interp false w 0 ≤ interp false w b := by
    simp only [interp_false]
    exact_mod_cast Nat.zero_le b
  unfold Uniform.newInclusive
  rw [newInclusive_some false w 0 b hle]
  exact ⟨_, rfl⟩

/-- Bounds for a facade sampler over the unsigned reading of [0, b]. -/
theorem unsigned_sampleList_bounds (w W : Nat) (hw : 0 < w) (hwW : w ≤ W)
    (b : Nat) (hb : b < 2 ^ w) (U : Uniform w)
    (hU : Uniform.newInclusive false w 0 b = some U)
    (s : List Nat) (x : Nat) (rest : List Nat)
    (hx : U.sampleList W s = some (x, rest)) : x ≤ b ∧ x < 2 ^ w := by
  have hinner := facade_newInclusive_inner false w 0 b U hU
  have hle : interp false w 0 ≤ interp false w b := by
    simp only [interp_false]
    exact_mod_cast Nat.zero_le b
  have hx2 : U.inner.sampleList W s = some (x, rest) := hx
  have h := sampleList_bounds false w W hw hwW 0 b (by positivity) hb hle
    U.inner hinner s x rest hx2
  have h2 := sampleList_lt w W hw U.inner s x rest hx2
  refine ⟨?_, h2⟩
  have hxb := h.2
  simp only [interp_false] at hxb
  exact_mod_cast hxb

/-- The fresh nanosecond range sampler built in large mode sampling. -/
theorem nano_sampler_eq :
    Uniform.new false 32 0 nanosPerSec =
      some ⟨⟨0, 1000000000, 3999999999⟩⟩ := by
  have h : UniformInt.new false 32 0 nanosPerSec = some ⟨0, 1000000000, 3999999999⟩ := by
    decide
  unfold Uniform.new
  rw [h]
  rfl

/-- Every nanosecond count drawn through the fresh range sampler is below
the modulus. -/
theorem nano_sampler_bound (s : List Nat) (x : Nat) (rest : List Nat)
    (hx : (⟨⟨0, 1000000000, 3999999999⟩⟩ : Uniform 32).sampleList 32 s =
      some (x, rest)) :
    x < nanosPerSec := by
  have hU : Uniform.newInclusive false 32 0 999999999 =
      some ⟨⟨0, 1000000000, 3999999999⟩⟩ := by
    have h : UniformInt.newInclusive false 32 0 999999999 =
        some ⟨0, 1000000000, 3999999999⟩ := by decide
    unfold Uniform.newInclusive
    rw [h]
    rfl
  have hb := unsigned_sampleList_bounds 32 32 (by norm_num) le_rfl 999999999
    (by norm_num) _ hU s x rest hx
  unfold nanosPerSec
  omega

/-- Any accepted candidate of the large mode rejection loop is at most
size, with a well formed nanosecond part and a 64 bit second count. -/
theorem sampleLargeAux_bounds (size : Duration) (secsU : Uniform 64)
    (nanoU : Uniform 32)
    (hnb : ∀ s x rest, nanoU.sampleList 32 s = some (x, rest) → x < nanosPerSec) :
    ∀ fuel s d, sampleLargeAux size secsU nanoU fuel s = some d →
      durLe d size ∧ d.nanos < nanosPerSec ∧ d.secs < 2 ^ 64 := by
  intro fuel
  induction fuel with
  | zero =>
    intro s d hd
    exact absurd hd (by simp [sampleLargeAux])
  | succ n ih =>
    intro s d hd
    unfold sampleLargeAux at hd
    split at hd
    · exact absurd hd (by simp)
    · rename_i sv r1 hsec
      split at hd
      · exact absurd hd (by simp)
      · rename_i nv r2 hnano
        simp only at hd
        by_cases hacc : durLe (⟨sv, nv⟩ : Duration) size
        · rw [if_pos hacc] at hd
          obtain rfl := Option.some.inj hd
          have hsv : sv < 2 ^ 64 :=
            sampleList_lt 64 64 (by norm_num) secsU.inner s sv r1 hsec
          exact ⟨hacc, hnb r1 nv r2 hnano, hsv⟩
        · rw [if_neg hacc] at hd
          exact ih r2 d hd

/-- Construction and mode selection of the inclusive Duration sampler:
construction succeeds, the offset is low, small mode is chosen exactly when
the total nanosecond count of the span fits a u64 (with the merged sampler
over [0, count]), and large mode stores the exact size and the
whole-second sampler over [0, size.secs]. -/
theorem durNewInclusive_spec (low high : Duration) (hlw : low.wf) (hhw : high.wf)
    (hle : durLe low high) :
    ∃ u, UniformDuration.newInclusive low high = some u ∧ u.offset = low ∧
      (high.toNanos - low.toNanos < 2 ^ 64 →
        ∃ nanosU, u.mode = UniformDurationMode.small nanosU ∧
          Uniform.newInclusive false 64 0 (high.toNanos - low.toNanos) = some nanosU) ∧
      (2 ^ 64 ≤ high.toNanos - low.toNanos →
        ∃ size secsU, u.mode = UniformDurationMode.large size secsU ∧
          size.toNanos = high.toNanos - low.toNanos ∧ size.nanos < nanosPerSec ∧
          Uniform.newInclusive false 64 0 size.secs = some secsU) := by
  obtain ⟨size, hsub, hsz, hszn, hszsecs⟩ := checkedSub_spec high low hhw.2 hlw.2 hle
  have hkey : size.secs * nanosPerSec + size.nanos = high.toNanos - low.toNanos := by
    have h2 : size.toNanos = high.toNanos - low.toNanos := hsz
    unfold Duration.toNanos at h2
    exact h2
  by_cases h1 : size.secs * nanosPerSec < 2 ^ 64
  · by_cases h2 : size.secs * nanosPerSec + size.nanos < 2 ^ 64
    · obtain ⟨NU, hNU⟩ :=
        unsigned_newInclusive_isSome 64 (size.secs * nanosPerSec + size.nanos) h2
      refine ⟨⟨low, UniformDurationMode.small NU⟩, ?_, rfl, ?_, ?_⟩
      · simp only [UniformDuration.newInclusive, if_pos hle, hsub]
        simp only [if_pos h1, if_pos h2, hNU]
      · intro _
        refine ⟨NU, rfl, ?_⟩
        rw [← hkey]
        exact hNU
      · intro hge
        omega
    · have hsecs64 : size.secs < 2 ^ 64 := lt_of_le_of_lt hszsecs hhw.1
      obtain ⟨SU, hSU⟩ := unsigned_newInclusive_isSome 64 size.secs hsecs64
      refine ⟨⟨low, UniformDurationMode.large size SU⟩, ?_, rfl, ?_, ?_⟩
      · simp only [UniformDuration.newInclusive, if_pos hle, hsub]
        simp only [if_pos h1, if_neg h2, hSU]
      · intro hlt64
        omega
      · intro _
        exact ⟨size, SU, rfl, hsz, hszn, hSU⟩
  · have hsecs64 : size.secs < 2 ^ 64 := lt_of_le_of_lt hszsecs hhw.1
    obtain ⟨SU, hSU⟩ := unsigned_newInclusive_isSome 64 size.secs hsecs64
    have hgen : nanosPerSec ≥ 1 := by norm_num [nanosPerSec]
    refine ⟨⟨low, UniformDurationMode.large size SU⟩, ?_, rfl, ?_, ?_⟩
    · simp only [UniformDuration.newInclusive, if_pos hle, hsub]
      simp only [if_neg h1, hSU]
    · intro hlt64
      omega
    · intro _
      exact ⟨size, SU, rfl, hsz, hszn, hSU⟩

/-- The characterization of a constructed inclusive Duration sampler. -/
theorem durNewInclusive_char (low high : Duration) (hlw : low.wf) (hhw : high.wf)
    (hle : durLe low high) (u : UniformDuration)
    (hu : UniformDuration.newInclusive low high = some u) :
    u.offset = low ∧
    (high.toNanos - low.toNanos < 2 ^ 64 →
      ∃ nanosU, u.mode = UniformDurationMode.small nanosU ∧
        Uniform.newInclusive false 64 0 (high.toNanos - low.toNanos) = some nanosU) ∧
    (2 ^ 64 ≤ high.toNanos - low.toNanos →
      ∃ size secsU, u.mode = UniformDurationMode.large size secsU ∧
        size.toNanos = high.toNanos - low.toNanos ∧ size.nanos < nanosPerSec ∧
        Uniform.newInclusive false 64 0 size.secs = some secsU) := by
  obtain ⟨u2, hu2, hrest⟩ := durNewInclusive_spec low high hlw hhw hle
  rw [hu] at hu2
  obtain rfl := Option.some.inj hu2
  exact hrest

/-- Every value produced by the inclusive Duration sampler lies between low
and high, with a well formed nanosecond part. -/
theorem durSample_bounds (low high : Duration) (hlw : low.wf) (hhw : high.wf)
    (hle : durLe low high) (u : UniformDuration)
    (hu : UniformDuration.newInclusive low high = some u)
    (s : List Nat) (v : Duration) (hv : u.sample s = some v) :
    durLe low v ∧ durLe v high ∧ v.nanos < nanosPerSec := by
  obtain ⟨hoff, hsmall, hlarge⟩ := durNewInclusive_char low high hlw hhw hle u hu
  have hleN : low.toNanos ≤ high.toNanos :=
    (durLe_iff_toNanos low high hlw.2 hhw.2).mp hle
  have hhighval : high.toNanos < 2 ^ 64 * nanosPerSec := by
    have hs1 := hhw.1
    have hs2 := hhw.2
    unfold Duration.toNanos nanosPerSec at *
    omega
  unfold UniformDuration.sample at hv
  rw [hoff] at hv
  cases hmode : u.mode with
  | small nanosU =>
    rw [hmode] at hv
    have hdiff : high.toNanos - low.toNanos < 2 ^ 64 := by
      by_contra hge
      push_neg at hge
      obtain ⟨sz, sU, hm, _, _, _⟩ := hlarge hge
      rw [hmode] at hm
      exact UniformDurationMode.noConfusion hm
    obtain ⟨NU, hm, hNU⟩ := hsmall hdiff
    rw [hmode] at hm
    injection hm with hmm
    subst hmm
    simp only at hv
    cases hns : nanosU.sampleList 64 s with
    | none =>
      rw [hns] at hv
      exact absurd hv (by simp)
    | some p =>
      obtain ⟨n, rest2⟩ := p
      rw [hns] at hv
      simp only at hv
      have hnb := unsigned_sampleList_bounds 64 64 (by norm_num) le_rfl
        (high.toNanos - low.toNanos) hdiff nanosU hNU s n rest2 hns
      have hdn : (⟨n / nanosPerSec, n % nanosPerSec⟩ : Duration).toNanos = n := by
        unfold Duration.toNanos nanosPerSec
        simp only
        omega
      have hdm : (⟨n / nanosPerSec, n % nanosPerSec⟩ : Duration).nanos < nanosPerSec := by
        simp only
        unfold nanosPerSec
        omega
      obtain ⟨c, hcadd, hcval, hcn, hcs⟩ :=
        checkedAdd_spec low ⟨n / nanosPerSec, n % nanosPerSec⟩ hlw.2 hdm
          (by rw [hdn]; omega)
      rw [hcadd] at hv
      have hvc : c = v := Option.some.inj hv
      subst hvc
      rw [hdn] at hcval
      refine ⟨?_, ?_, hcn⟩
      · rw [durLe_iff_toNanos low c hlw.2 hcn]
        omega
      · rw [durLe_iff_toNanos c high hcn hhw.2]
        omega
  | large size secsU =>
    rw [hmode] at hv
    have hgediff : 2 ^ 64 ≤ high.toNanos - low.toNanos := by
      by_contra hlt64
      push_neg at hlt64
      obtain ⟨NU, hm, _⟩ := hsmall hlt64
      rw [hmode] at hm
      exact UniformDurationMode.noConfusion hm
    obtain ⟨sz, sU, hm, hszv, hszn, hSU⟩ := hlarge hgediff
    rw [hmode] at hm
    injection hm with hm1 hm2
    subst hm1
    subst hm2
    simp only at hv
    rw [nano_sampler_eq] at hv
    simp only at hv
    cases hsl : sampleLargeAux size secsU ⟨⟨0, 1000000000, 3999999999⟩⟩ s.length s with
    | none =>
      rw [hsl] at hv
      exact absurd hv (by simp)
    | some d =>
      rw [hsl] at hv
      simp only at hv
      have hdb := sampleLargeAux_bounds size secsU ⟨⟨0, 1000000000, 3999999999⟩⟩
        (fun s2 x rest hx => nano_sampler_bound s2 x rest hx) s.length s d hsl
      have hdval : d.toNanos ≤ high.toNanos - low.toNanos := by
        rw [← hszv]
        exact (durLe_iff_toNanos d size hdb.2.1 hszn).mp hdb.1
      obtain ⟨c, hcadd, hcval, hcn, hcs⟩ :=
        checkedAdd_spec low d hlw.2 hdb.2.1 (by omega)
      rw [hcadd] at hv
      have hvc : c = v := Option.some.inj hv
      subst hvc
      refine ⟨?_, ?_, hcn⟩
      · rw [durLe_iff_toNanos low c hlw.2 hcn]
        omega
      · rw [durLe_iff_toNanos c high hcn hhw.2]
        omega

/-- The half-open Duration constructor under its precondition: the
subtraction of one nanosecond from high succeeds and new delegates to
new_inclusive on (low, high minus one nanosecond). -/
theorem durNew_unfold (low high : Duration) (hlw : low.wf) (hhw : high.wf)
    (hlt : durLt low high) :
    ∃ h1, high.checkedSub ⟨0, 1⟩ = some h1 ∧ h1.wf ∧
      h1.toNanos = high.toNanos - 1 ∧ durLe low h1 ∧
      UniformDuration.new low high = UniformDuration.newInclusive low h1 := by
  have hltN : low.toNanos < high.toNanos := (durLt_iff_toNanos _ _ hlw.2 hhw.2).mp hlt
  have hone : durLe (⟨0, 1⟩ : Duration) high := by
    rw [durLe_iff_toNanos _ _ (by norm_num [nanosPerSec]) hhw.2]
    unfold Duration.toNanos nanosPerSec at hltN ⊢
    simp only
    omega
  obtain ⟨h1, hsub, hval, hn, hsecs⟩ :=
    checkedSub_spec high ⟨0, 1⟩ hhw.2 (by norm_num [nanosPerSec]) hone
  have hto1 : (⟨0, 1⟩ : Duration).toNanos = 1 := by
    unfold Duration.toNanos nanosPerSec
    simp
  rw [hto1] at hval
  refine ⟨h1, hsub, ⟨lt_of_le_of_lt hsecs hhw.1, hn⟩, hval, ?_, ?_⟩
  · rw [durLe_iff_toNanos low h1 hlw.2 hn, hval]
    omega
  · unfold UniformDuration.new
    rw [if_pos hlt, hsub]

/-- C6: Duration mode selection and bounds: new_inclusive selects small mode
exactly when the span expressed in nanoseconds fits a u64, building one
merged inclusive sampler over [0, count]; otherwise large mode with an
inclusive whole-second sampler over [0, size.secs] plus per-draw rejection
against the exact size; in both modes every sampled value lies in
[low, high], and in [low, high) for the half-open constructor. -/
theorem uniform_duration_modes_and_bounds (low high : Duration)
    (hlw : low.wf) (hhw : high.wf) :
    (∀ u, durLe low high → UniformDuration.newInclusive low high = some u →
      u.offset = low ∧
      ((high.toNanos - low.toNanos < 2 ^ 64) ↔
        ∃ nanosU, u.mode = UniformDurationMode.small nanosU) ∧
      (∀ nanosU, u.mode = UniformDurationMode.small nanosU →
        Uniform.newInclusive false 64 0 (high.toNanos - low.toNanos) = some nanosU) ∧
      (∀ size secsU, u.mode = UniformDurationMode.large size secsU →
        size.toNanos = high.toNanos - low.toNanos ∧
        Uniform.newInclusive false 64 0 size.secs = some secsU) ∧
      (∀ s v, u.sample s = some v → durLe low v ∧ durLe v high)) ∧
    (∀ u, durLt low high → UniformDuration.new low high = some u →
      ∀ s v, u.sample s = some v → durLe low v ∧ durLt v high) := by
  constructor
  · intro u hle hu
    obtain ⟨hoff, hsmall, hlarge⟩ := durNewInclusive_char low high hlw hhw hle u hu
    refine ⟨hoff, ?_, ?_, ?_, ?_⟩
    · constructor
      · intro hdiff
        obtain ⟨NU, hm, _⟩ := hsmall hdiff
        exact ⟨NU, hm⟩
      · rintro ⟨NU, hm⟩
        by_contra hge
        push_neg at hge
        obtain ⟨sz, sU, hm2, _, _, _⟩ := hlarge hge
        rw [hm] at hm2
        exact UniformDurationMode.noConfusion hm2
    · intro nanosU hm
      have hdiff : high.toNanos - low.toNanos < 2 ^ 64 := by
        by_contra hge
        push_neg at hge
        obtain ⟨sz, sU, hm2, _, _, _⟩ := hlarge hge
        rw [hm] at hm2
        exact UniformDurationMode.noConfusion hm2
      obtain ⟨NU, hm2, hNU⟩ := hsmall hdiff
      rw [hm] at hm2
      injection hm2 with hmm
      rw [hmm]
      exact hNU
    · intro size secsU hm
      have hge : 2 ^ 64 ≤ high.toNanos - low.toNanos := by
        by_contra hlt64
        push_neg at hlt64
        obtain ⟨NU, hm2, _⟩ := hsmall hlt64
        rw [hm] at hm2
        exact UniformDurationMode.noConfusion hm2
      obtain ⟨sz, sU, hm2, hszv, hszn2, hSU⟩ := hlarge hge
      rw [hm] at hm2
      injection hm2 with hmm1 hmm2
      subst hmm1
      subst hmm2
      exact ⟨hszv, hSU⟩
    · intro s v hv
      have h := durSample_bounds low high hlw hhw hle u hu s v hv
      exact ⟨h.1, h.2.1⟩
  · intro u hlt hu
    obtain ⟨h1, hsub, h1wf, h1val, hle1, heq⟩ := durNew_unfold low high hlw hhw hlt
    rw [heq] at hu
    intro s v hv
    have h := durSample_bounds low h1 hlw h1wf hle1 u hu s v hv
    refine ⟨h.1, ?_⟩
    rw [durLt_iff_toNanos v high h.2.2 hhw.2]
    have hvle := (durLe_iff_toNanos v h1 h.2.2 h1wf.2).mp h.2.1
    have hltN := (durLt_iff_toNanos low high hlw.2 hhw.2).mp hlt
    omega

theorem uniform_duration_modes_and_bounds_witness :
    durLe ⟨0, 0⟩ (⟨0, 0⟩ : Duration) ∧ durLe (⟨0, 0⟩ : Duration) ⟨0, 5⟩ :=
  ((uniform_duration_modes_and_bounds ⟨0, 0⟩ ⟨0, 5⟩
      ⟨by norm_num, by norm_num [nanosPerSec]⟩
      ⟨by norm_num, by norm_num [nanosPerSec]⟩).1
    ⟨⟨0, 0⟩, UniformDurationMode.small ⟨⟨0, 6, 18446744073709551611⟩⟩⟩
    (by decide) (by decide)).2.2.2.2 [3] ⟨0, 0⟩ (by decide)

/-- C3: construction fails exactly on a violated range precondition, for
every integer back-end instantiation, every (abstract) float type and
Duration: new and the sample_single parameter computation fail (the
assertion panic, modelled none) precisely when low is not strictly below
high, new_inclusive fails precisely when low is strictly above high, and
for every correctly ordered pair the constructors return normally (there is
no other failure on any construction path). -/
theorem constructors_fail_iff_invalid_range :
    (∀ (signed : Bool) (w W : Nat), 0 < w → ∀ low high : Nat,
      low < 2 ^ w → high < 2 ^ w →
      (((UniformInt.new signed w low high).isSome ↔
          interp signed w low < interp signed w high) ∧
       ((UniformInt.newInclusive signed w low high).isSome ↔
          interp signed w low ≤ interp signed w high) ∧
       ((sampleSingleParams signed w W low high).isSome ↔
          interp signed w low < interp signed w high))) ∧
    (∀ (F : Type) [LinearOrder F] [Sub F] [Mul F] [Add F] (flo fhi v : F),
      ((UniformFloat.new flo fhi).isSome ↔ flo < fhi) ∧
      ((UniformFloat.newInclusive flo fhi).isSome ↔ flo ≤ fhi) ∧
      ((UniformFloat.sampleSingle flo fhi v).isSome ↔ flo < fhi)) ∧
    (∀ dlo dhi : Duration, dlo.wf → dhi.wf →
      (((UniformDuration.new dlo dhi).isSome ↔ durLt dlo dhi) ∧
       ((UniformDuration.newInclusive dlo dhi).isSome ↔ durLe dlo dhi))) := by
  refine ⟨?_, ?_, ?_⟩
  · intro signed w W hw low high hl hh
    refine ⟨⟨?_, ?_⟩, ⟨?_, ?_⟩, ⟨?_, ?_⟩⟩
    · intro hs
      by_contra hnlt
      unfold UniformInt.new at hs
      rw [if_neg hnlt] at hs
      simp at hs
    · intro hlt
      obtain ⟨h1, hsome, hlt1, hval, hle1, heq⟩ :=
        new_unfold signed w hw low high hl hh hlt
      rw [heq, newInclusive_some signed w low h1 hle1]
      rfl
    · intro hs
      by_contra hnle
      unfold UniformInt.newInclusive at hs
      rw [if_neg hnle] at hs
      simp at hs
    · intro hle
      rw [newInclusive_some signed w low high hle]
      rfl
    · intro hs
      by_contra hnlt
      unfold sampleSingleParams at hs
      rw [if_neg hnlt] at hs
      simp at hs
    · intro hlt
      unfold sampleSingleParams
      rw [if_pos hlt]
      rfl
  · intro F _ _ _ _ flo fhi v
    refine ⟨?_, ?_, ?_⟩
    · unfold UniformFloat.new
      by_cases h : flo < fhi
      · rw [if_pos h]
        simp [h]
      · rw [if_neg h]
        simp [h]
    · unfold UniformFloat.newInclusive
      by_cases h : flo ≤ fhi
      · rw [if_pos h]
        simp [h]
      · rw [if_neg h]
        simp [h]
    · unfold UniformFloat.sampleSingle
      by_cases h : flo < fhi
      · rw [if_pos h]
        simp [h]
      · rw [if_neg h]
        simp [h]
  · intro dlo dhi hwl hwh
    refine ⟨⟨?_, ?_⟩, ⟨?_, ?_⟩⟩
    · intro hs
      by_contra hnlt
      unfold UniformDuration.new at hs
      rw [if_neg hnlt] at hs
      simp at hs
    · intro hlt
      obtain ⟨h1, hsub, h1wf, h1val, hle1, heq⟩ := durNew_unfold dlo dhi hwl hwh hlt
      obtain ⟨u, hu, _⟩ := durNewInclusive_spec dlo h1 hwl h1wf hle1
      rw [heq, hu]
      rfl
    · intro hs
      by_contra hnle
      unfold UniformDuration.newInclusive at hs
      rw [if_neg hnle] at hs
      simp at hs
    · intro hle
      obtain ⟨u, hu, _⟩ := durNewInclusive_spec dlo dhi hwl hwh hle
      rw [hu]
      rfl

theorem constructors_fail_iff_invalid_range_witness :
    ((UniformInt.new false 8 10 10).isSome ↔ interp false 8 10 < interp false 8 10) ∧
    ((UniformFloat.new (10 : Int) 10).isSome ↔ (10 : Int) < 10) ∧
    ((UniformDuration.new ⟨10, 0⟩ ⟨10, 0⟩).isSome ↔ durLt ⟨10, 0⟩ ⟨10, 0⟩) := by
  obtain ⟨hint, hfl, hdur⟩ := constructors_fail_iff_invalid_range
  exact ⟨(hint false 8 32 (by decide) 10 10 (by decide) (by decide)).1,
    (hfl Int 10 10 0).1,
    (hdur ⟨10, 0⟩ ⟨10, 0⟩ ⟨by norm_num, by norm_num [nanosPerSec]⟩
      ⟨by norm_num, by norm_num [nanosPerSec]⟩).1⟩

end Rand
